import Mathlib

/-!
Verification of the ag2 documentation tooling (website/process_api_reference.py,
autogen/_website/generate_mkdocs.py, autogen/_website/utils.py).

Python strings are modelled as Lean `String` (a list of characters); `s.split("/")`
and `"/".join(l)` are modelled by `splitStr '/'` and `joinStr '/'` below, which
implement exactly Python's single-character-separator split/join semantics
(`"".split("/") = [""]`, `"a//b".split("/") = ["a", "", "b"]`, and join is the
inverse on separator-free segments).  Python's string comparison (`sorted`) is
lexicographic on code points and is modelled by `strLe`.  `pathlib.Path` values
are modelled as lists of path components; `subprocess` and file I/O are modelled
as explicit environment functions / file-state values where a claim needs them.
-/

/-- Python `s.split(sep)` for a single-character separator, on character lists.
Always returns a non-empty list; splitting the empty list yields `[[]]`. -/
def splitOnCharList (sep : Char) : List Char → List (List Char)
  | [] => [[]]
  | c :: cs =>
    if c = sep then [] :: splitOnCharList sep cs
    else
      match splitOnCharList sep cs with
      | [] => [[c]]
      | s :: ss => (c :: s) :: ss

/-- Python `sep.join(l)` for a single-character separator, on character lists. -/
def joinWithCharList (sep : Char) : List (List Char) → List Char
  | [] => []
  | [s] => s
  | s :: ss => s ++ sep :: joinWithCharList sep ss

/-- Python `path.split(sep)` on strings. -/
def splitStr (sep : Char) (s : String) : List String :=
  (splitOnCharList sep s.data).map String.mk

/-- Python `sep.join(l)` on strings. -/
def joinStr (sep : Char) (l : List String) : String :=
  String.mk (joinWithCharList sep (l.map String.data))

theorem splitOnCharList_ne_nil (sep : Char) (l : List Char) : splitOnCharList sep l ≠ [] := by
  induction l with
  | nil => simp [splitOnCharList]
  | cons c cs ih =>
    simp only [splitOnCharList]
    split
    · simp
    · cases h : splitOnCharList sep cs with
      | nil => simp
      | cons s ss => simp

theorem join_cons_cons (sep : Char) (s t : List Char) (ts : List (List Char)) :
    joinWithCharList sep (s :: t :: ts) = s ++ sep :: joinWithCharList sep (t :: ts) := rfl

theorem join_split (sep : Char) (l : List Char) :
    joinWithCharList sep (splitOnCharList sep l) = l := by
  induction l with
  | nil => rfl
  | cons c cs ih =>
    simp only [splitOnCharList]
    split
    · rename_i hc
      cases h : splitOnCharList sep cs with
      | nil => exact absurd h (splitOnCharList_ne_nil sep cs)
      | cons s ss =>
        rw [join_cons_cons]
        rw [h] at ih
        simp [ih, hc]
    · cases h : splitOnCharList sep cs with
      | nil => exact absurd h (splitOnCharList_ne_nil sep cs)
      | cons s ss =>
        rw [h] at ih
        cases ss with
        | nil => simpa [joinWithCharList] using ih
        | cons t ts =>
          rw [join_cons_cons] at ih ⊢
          simpa using ih

theorem mem_split_sep_not_mem (sep : Char) (l : List Char) :
    ∀ s ∈ splitOnCharList sep l, sep ∉ s := by
  induction l with
  | nil => simp [splitOnCharList]
  | cons c cs ih =>
    simp only [splitOnCharList]
    split
    · intro s hs
      rcases List.mem_cons.mp hs with h | h
      · simp [h]
      · exact ih s h
    · rename_i hc
      cases h : splitOnCharList sep cs with
      | nil => exact absurd h (splitOnCharList_ne_nil sep cs)
      | cons s ss =>
        intro t ht
        rcases List.mem_cons.mp ht with h' | h'
        · subst h'
          intro hmem
          rcases List.mem_cons.mp hmem with h'' | h''
          · exact hc h''.symm
          · exact ih s (h ▸ List.mem_cons_self s ss) h''
        · exact ih t (h ▸ List.mem_cons_of_mem s h')

theorem split_sep_free (sep : Char) (s : List Char) (h : sep ∉ s) :
    splitOnCharList sep s = [s] := by
  induction s with
  | nil => rfl
  | cons c cs ih =>
    simp only [splitOnCharList]
    have hc : ¬ c = sep := fun hh => h (hh ▸ List.mem_cons_self c cs)
    rw [if_neg hc, ih (fun hm => h (List.mem_cons_of_mem c hm))]

theorem split_append_sep (sep : Char) (s t : List Char) (h : sep ∉ s) :
    splitOnCharList sep (s ++ sep :: t) = s :: splitOnCharList sep t := by
  induction s with
  | nil => simp [splitOnCharList]
  | cons c cs ih =>
    have hc : ¬ c = sep := fun hh => h (hh ▸ List.mem_cons_self c cs)
    have ih' := ih (fun hm => h (List.mem_cons_of_mem c hm))
    simp only [List.cons_append, splitOnCharList, if_neg hc, List.append_eq, ih']

theorem split_join (sep : Char) (ls : List (List Char)) (hne : ls ≠ [])
    (hfree : ∀ s ∈ ls, sep ∉ s) :
    splitOnCharList sep (joinWithCharList sep ls) = ls := by
  induction ls with
  | nil => exact absurd rfl hne
  | cons s ss ih =>
    cases ss with
    | nil =>
      simp only [joinWithCharList]
      exact split_sep_free sep s (hfree s (List.mem_cons_self s []))
    | cons t ts =>
      rw [join_cons_cons,
        split_append_sep sep s _ (hfree s (List.mem_cons_self s (t :: ts))),
        ih (by simp) (fun x hx => hfree x (List.mem_cons_of_mem s hx))]

theorem String.mk_data (s : String) : String.mk s.data = s := rfl

theorem joinStr_splitStr (sep : Char) (s : String) : joinStr sep (splitStr sep s) = s := by
  simp only [joinStr, splitStr, List.map_map]
  have : (String.data ∘ String.mk) = id := rfl
  rw [this, List.map_id, join_split]

theorem splitStr_ne_nil (sep : Char) (s : String) : splitStr sep s ≠ [] := by
  simp only [splitStr, ne_eq, List.map_eq_nil_iff]
  exact splitOnCharList_ne_nil sep s.data

theorem mem_splitStr_sep_free (sep : Char) (s : String) :
    ∀ t ∈ splitStr sep s, sep ∉ t.data := by
  intro t ht
  simp only [splitStr, List.mem_map] at ht
  obtain ⟨cs, hcs, rfl⟩ := ht
  exact mem_split_sep_not_mem sep s.data cs hcs

theorem splitStr_joinStr (sep : Char) (l : List String) (hne : l ≠ [])
    (hfree : ∀ x ∈ l, sep ∉ x.data) :
    splitStr sep (joinStr sep l) = l := by
  simp only [splitStr, joinStr]
  rw [split_join sep (l.map String.data) (by simpa using hne)
    (by intro s hs; simp only [List.mem_map] at hs; obtain ⟨x, hx, rfl⟩ := hs; exact hfree x hx)]
  simp only [List.map_map]
  have : (String.mk ∘ String.data) = id := rfl
  rw [this, List.map_id]

theorem joinStr_singleton (sep : Char) (s : String) : joinStr sep [s] = s := rfl

theorem joinStr_cons_cons (sep : Char) (x y : String) (ys : List String) :
    (joinStr sep (x :: y :: ys)).data = x.data ++ sep :: (joinStr sep (y :: ys)).data := rfl

theorem string_length_eq_data (s : String) : s.length = s.data.length := rfl

theorem joinStr_cons_length (sep : Char) (x y : String) (ys : List String) :
    (joinStr sep (x :: y :: ys)).length = x.length + 1 + (joinStr sep (y :: ys)).length := by
  rw [string_length_eq_data, string_length_eq_data, string_length_eq_data, joinStr_cons_cons]
  simp only [List.length_append, List.length_cons]
  omega

/-- Python string comparison is lexicographic on code points; this is the
non-strict comparison used by `sorted`. -/
def leChars : List Char → List Char → Bool
  | [], _ => true
  | _ :: _, [] => false
  | a :: as, b :: bs =>
    if a.toNat < b.toNat then true
    else if b.toNat < a.toNat then false
    else leChars as bs

/-- Python `a <= b` on strings (the order used by `sorted`). -/
def strLe (a b : String) : Prop := leChars a.data b.data = true

instance : DecidableRel strLe := fun a b =>
  inferInstanceAs (Decidable (leChars a.data b.data = true))

theorem leChars_total (a : List Char) : ∀ b, leChars a b = true ∨ leChars b a = true := by
  induction a with
  | nil => intro b; left; rfl
  | cons x xs ih =>
    intro b
    cases b with
    | nil => right; rfl
    | cons y ys =>
      simp only [leChars]
      rcases Nat.lt_trichotomy x.toNat y.toNat with h | h | h
      · left; simp [h]
      · have h1 : ¬ x.toNat < y.toNat := by omega
        have h2 : ¬ y.toNat < x.toNat := by omega
        rcases ih ys with hx | hx
        · left; simp [h1, h2, hx]
        · right; simp [h1, h2, hx]
      · right; simp [h]

theorem leChars_trans (a : List Char) :
    ∀ b c, leChars a b = true → leChars b c = true → leChars a c = true := by
  induction a with
  | nil => intro b c _ _; rfl
  | cons x xs ih =>
    intro b c hab hbc
    cases b with
    | nil => simp [leChars] at hab
    | cons y ys =>
      cases c with
      | nil => simp [leChars] at hbc
      | cons z zs =>
        simp only [leChars] at hab hbc ⊢
        have hxy : x.toNat ≤ y.toNat := by
          by_contra hgt
          simp [show ¬ x.toNat < y.toNat from by omega, show y.toNat < x.toNat from by omega]
            at hab
        have hyz : y.toNat ≤ z.toNat := by
          by_contra hgt
          simp [show ¬ y.toNat < z.toNat from by omega, show z.toNat < y.toNat from by omega]
            at hbc
        by_cases hlt : x.toNat < z.toNat
        · simp [hlt]
        · have exy : x.toNat = y.toNat := by omega
          have eyz : y.toNat = z.toNat := by omega
          rw [if_neg (by omega), if_neg (by omega)] at hab
          rw [if_neg (by omega), if_neg (by omega)] at hbc
          rw [if_neg (by omega), if_neg (by omega)]
          exact ih ys zs hab hbc

instance : IsTotal String strLe := ⟨fun a b => leChars_total a.data b.data⟩

instance : IsTrans String strLe := ⟨fun a b c => leChars_trans a.data b.data c.data⟩

/-- A navigation node: either a page-reference string or a named group of nodes
(the shape of the JSON values produced by `create_nav_structure`). -/
inductive Nav where
  | page : String → Nav
  | group : String → List Nav → Nav

/-- Source `add_prefix` (process_api_reference.py lines 140-143):
`f"docs/reference/{'/'.join(groups + [path])}"`. -/
def add_prefix (path : String) (parent_groups : List String) : String :=
  "docs/reference/" ++ joinStr '/' (parent_groups ++ [path])

/-- The displayed name of a group (process_api_reference.py line 164):
`".".join(parent_groups + [group]) if parent_groups else group`. -/
def dotName (parent_groups : List String) (g : String) : String :=
  if parent_groups.isEmpty then g else joinStr '.' (parent_groups ++ [g])

/-- `groups.setdefault(group, []).append(subpath)` on an insertion-ordered
association list (Python dicts preserve insertion order). -/
def addToGroups (g : String) (sub : String) :
    List (String × List String) → List (String × List String)
  | [] => [(g, [sub])]
  | (k, v) :: rest => if k = g then (k, v ++ [sub]) :: rest else (k, v) :: addToGroups g sub rest

/-- One iteration of the `for path in paths` loop of `create_nav_structure`
(process_api_reference.py lines 152-159); the accumulator is the pair
(groups, pages).  `splitStr` never returns `[]`, so `headD ""` is `parts[0]`. -/
def processPath (parent_groups : List String)
    (acc : List (String × List String) × List String) (path : String) :
    List (String × List String) × List String :=
  let parts := splitStr '/' path
  if parts.length = 1 then (acc.1, acc.2 ++ [ add_prefix path parent_groups])
  else (addToGroups (parts.headD "") (joinStr '/' parts.tail) acc.1, acc.2)

/-- The grouping loop of `create_nav_structure`: partitions the input paths into
(groups, pages). -/
def collectGroups (parent_groups : List String) (paths : List String) :
    List (String × List String) × List String :=
  paths.foldl (processPath parent_groups) ([], [])

/-- The order used by `sorted(groups.items())`: Python compares the (key, value)
tuples, but the keys of a dict are distinct, so the comparison is decided by the
key alone. -/
def groupLe (a b : String × List String) : Prop := strLe a.1 b.1

instance : DecidableRel groupLe := fun a b => inferInstanceAs (Decidable (strLe a.1 b.1))

instance : IsTotal (String × List String) groupLe := ⟨fun a b => IsTotal.total a.1 b.1⟩

instance : IsTrans (String × List String) groupLe :=
  ⟨fun a b c hab hbc => IsTrans.trans (r := strLe) a.1 b.1 c.1 hab hbc⟩

/-- Python `sorted` on a list of strings. -/
def sortedStrings (l : List String) : List String := List.insertionSort strLe l

/-- Python `sorted(groups.items())`. -/
def sortedGroups (l : List (String × List String)) : List (String × List String) :=
  List.insertionSort groupLe l

/-- Termination measure for `create_nav_structure`: total string length of the
path list, counting one extra per entry.  Each recursive call strictly decreases
it, because every subpath lost its first segment and the separator. -/
def pathsMeasure (paths : List String) : Nat :=
  (paths.map fun p => p.length + 1).sum

/-- Fuelled version of `create_nav_structure` (process_api_reference.py lines
146-174).  The fuel only bounds the recursion depth; `createNavF_congr` below
shows the result does not depend on the fuel once it is at least
`pathsMeasure paths`, and `create_nav_structure_unfold` recovers the source's
self-recursive equation. -/
def createNavF : Nat → List String → List String → List Nav
  | 0, _, _ => []
  | fuel + 1, paths, parent_groups =>
    let gps := collectGroups parent_groups paths
    (sortedGroups gps.1).map
        (fun gk => Nav.group (dotName parent_groups gk.1)
          (createNavF fuel gk.2 (parent_groups ++ [gk.1])))
      ++ (sortedStrings gps.2).map Nav.page

/-- Source `create_nav_structure(paths, parent_groups)`; the top-level caller
passes no parent groups (`parent_groups or []` is modelled by an explicit list
argument). -/
def create_nav_structure (paths : List String) (parent_groups : List String) : List Nav :=
  createNavF (pathsMeasure paths + 1) paths parent_groups

/-- Combined measure of the subpath lists stored in a groups accumulator. -/
def groupsMeasure (gs : List (String × List String)) : Nat :=
  (gs.map fun gk => pathsMeasure gk.2).sum

theorem pathsMeasure_eq (paths : List String) :
    pathsMeasure paths = (paths.map String.length).sum + paths.length := by
  induction paths with
  | nil => rfl
  | cons p ps ih => simp only [pathsMeasure, List.map_cons, List.sum_cons, List.length_cons] at *; omega

theorem pathsMeasure_eq_zero {paths : List String} (h : pathsMeasure paths = 0) : paths = [] := by
  cases paths with
  | nil => rfl
  | cons p ps => simp [pathsMeasure] at h

theorem groupsMeasure_addToGroups (g sub : String) (gs : List (String × List String)) :
    groupsMeasure (addToGroups g sub gs) = groupsMeasure gs + (sub.length + 1) := by
  induction gs with
  | nil => simp [addToGroups, groupsMeasure, pathsMeasure]
  | cons kv rest ih =>
    obtain ⟨k, v⟩ := kv
    simp only [addToGroups]
    split
    · simp only [groupsMeasure, List.map_cons, List.sum_cons, pathsMeasure, List.map_append,
        List.sum_append, List.map_cons, List.sum_cons, List.map_nil, List.sum_nil]
      omega
    · simp only [groupsMeasure, List.map_cons, List.sum_cons] at ih ⊢
      omega

theorem subpath_length_le (path x y : String) (ys : List String)
    (h : splitStr '/' path = x :: y :: ys) :
    (joinStr '/' (y :: ys)).length + 1 ≤ path.length := by
  have hj := joinStr_splitStr '/' path
  rw [h] at hj
  have hlen := joinStr_cons_length '/' x y ys
  rw [hj] at hlen
  omega

theorem processPath_groups_le (parent_groups : List String)
    (acc : List (String × List String) × List String) (path : String) :
    groupsMeasure (processPath parent_groups acc path).1
      ≤ groupsMeasure acc.1 + path.length := by
  simp only [processPath]
  split
  · simp
  · rename_i hlen
    cases hsp : splitStr '/' path with
    | nil => exact absurd hsp (splitStr_ne_nil '/' path)
    | cons x rest =>
      cases rest with
      | nil => rw [hsp] at hlen; simp at hlen
      | cons y ys =>
        have := subpath_length_le path x y ys hsp
        simp only [List.headD_cons, List.tail_cons]
        rw [groupsMeasure_addToGroups]
        omega

theorem foldl_groups_le (parent_groups : List String) (paths : List String) :
    ∀ acc : List (String × List String) × List String,
    groupsMeasure (paths.foldl (processPath parent_groups) acc).1
      ≤ groupsMeasure acc.1 + (paths.map String.length).sum := by
  induction paths with
  | nil => intro acc; simp
  | cons p ps ih =>
    intro acc
    simp only [List.foldl_cons, List.map_cons, List.sum_cons]
    refine le_trans (ih (processPath parent_groups acc p)) ?_
    have := processPath_groups_le parent_groups acc p
    omega

theorem mem_collectGroups_measure_lt (parent_groups : List String) (paths : List String)
    (g : String) (subs : List String)
    (hmem : (g, subs) ∈ (collectGroups parent_groups paths).1) :
    pathsMeasure subs < pathsMeasure paths := by
  have h1 : pathsMeasure subs ≤ groupsMeasure (collectGroups parent_groups paths).1 := by
    have hm : pathsMeasure subs ∈
        ((collectGroups parent_groups paths).1.map fun gk => pathsMeasure gk.2) :=
      List.mem_map.mpr ⟨(g, subs), hmem, rfl⟩
    exact List.single_le_sum (fun x _ => Nat.zero_le x) _ hm
  have h2 : groupsMeasure (collectGroups parent_groups paths).1
      ≤ (paths.map String.length).sum := by
    have := foldl_groups_le parent_groups paths ([], [])
    simpa [collectGroups, groupsMeasure] using this
  have h3 : paths ≠ [] := by
    rintro rfl
    simp [collectGroups] at hmem
  have h4 := pathsMeasure_eq paths
  have h5 : 0 < paths.length := List.length_pos.mpr h3
  omega

theorem createNavF_nil (fuel : Nat) (parent_groups : List String) :
    createNavF fuel [] parent_groups = [] := by
  cases fuel with
  | zero => rfl
  | succ f => rfl

theorem createNavF_congr (n : Nat) :
    ∀ (paths parent_groups : List String) (f1 f2 : Nat),
    pathsMeasure paths ≤ n → pathsMeasure paths < f1 → pathsMeasure paths < f2 →
    createNavF f1 paths parent_groups = createNavF f2 paths parent_groups := by
  induction n with
  | zero =>
    intro paths parent_groups f1 f2 hn _ _
    have : paths = [] := pathsMeasure_eq_zero (Nat.le_zero.mp hn)
    subst this
    rw [createNavF_nil, createNavF_nil]
  | succ n ih =>
    intro paths parent_groups f1 f2 hn h1 h2
    cases f1 with
    | zero => omega
    | succ a =>
      cases f2 with
      | zero => omega
      | succ b =>
        simp only [createNavF]
        congr 1
        apply List.map_congr_left
        intro gk hgk
        have hmem : gk ∈ (collectGroups parent_groups paths).1 :=
          (List.perm_insertionSort groupLe _).mem_iff.mp hgk
        have hlt : pathsMeasure gk.2 < pathsMeasure paths :=
          mem_collectGroups_measure_lt parent_groups paths gk.1 gk.2 hmem
        rw [ih gk.2 (parent_groups ++ [gk.1]) a b (by omega) (by omega) (by omega)]

theorem create_nav_structure_unfold (paths parent_groups : List String) :
    create_nav_structure paths parent_groups =
      (sortedGroups (collectGroups parent_groups paths).1).map
        (fun gk => Nav.group (dotName parent_groups gk.1)
          (create_nav_structure gk.2 (parent_groups ++ [gk.1])))
      ++ (sortedStrings (collectGroups parent_groups paths).2).map Nav.page := by
  show createNavF (pathsMeasure paths + 1) paths parent_groups = _
  simp only [createNavF]
  congr 1
  apply List.map_congr_left
  intro gk hgk
  have hmem : gk ∈ (collectGroups parent_groups paths).1 :=
    (List.perm_insertionSort groupLe _).mem_iff.mp hgk
  have hlt : pathsMeasure gk.2 < pathsMeasure paths :=
    mem_collectGroups_measure_lt parent_groups paths gk.1 gk.2 hmem
  rw [createNavF_congr (pathsMeasure gk.2) gk.2 (parent_groups ++ [gk.1])
    (pathsMeasure paths) (pathsMeasure gk.2 + 1) (le_refl _) hlt (by omega)]
  rfl

theorem create_nav_structure_nil (parent_groups : List String) :
    create_nav_structure [] parent_groups = [] := rfl

/-- The ordering invariant of a produced navigation level: the level is a run of
group nodes followed by a run of page nodes; the group nodes are sorted
ascending by their raw (unqualified) segment key (their displayed name being the
dot-qualified form of that key); the page strings are sorted ascending; and
every group's children satisfy the same invariant one level deeper. -/
inductive NavOrdered : List String → List Nav → Prop where
  | mk (parent_groups : List String) (gks : List (String × List Nav)) (ps : List String)
      (hg : List.Sorted strLe (gks.map Prod.fst))
      (hp : List.Sorted strLe ps)
      (hrec : ∀ gk ∈ gks, NavOrdered (parent_groups ++ [gk.1]) gk.2) :
      NavOrdered parent_groups
        (gks.map (fun gk => Nav.group (dotName parent_groups gk.1) gk.2) ++ ps.map Nav.page)

theorem navOrdered_nil (parent_groups : List String) : NavOrdered parent_groups [] :=
  NavOrdered.mk parent_groups [] [] (by simp) (by simp) (by simp)

theorem navOrdered_create (n : Nat) :
    ∀ (paths parent_groups : List String), pathsMeasure paths ≤ n →
    NavOrdered parent_groups (create_nav_structure paths parent_groups) := by
  induction n with
  | zero =>
    intro paths parent_groups hn
    have : paths = [] := pathsMeasure_eq_zero (Nat.le_zero.mp hn)
    subst this
    rw [create_nav_structure_nil]
    exact navOrdered_nil parent_groups
  | succ n ih =>
    intro paths parent_groups hn
    rw [create_nav_structure_unfold]
    have key := NavOrdered.mk parent_groups
      ((sortedGroups (collectGroups parent_groups paths).1).map
        (fun gk => (gk.1, create_nav_structure gk.2 (parent_groups ++ [gk.1]))))
      (sortedStrings (collectGroups parent_groups paths).2)
      ?_ ?_ ?_
    · rw [List.map_map] at key
      exact key
    · rw [List.map_map]
      have hs : List.Pairwise groupLe
          (sortedGroups (collectGroups parent_groups paths).1) :=
        List.sorted_insertionSort groupLe _
      exact List.pairwise_map.mpr hs
    · exact List.sorted_insertionSort strLe _
    · intro gk hgk
      simp only [List.mem_map] at hgk
      obtain ⟨⟨k, subs⟩, hmem0, rfl⟩ := hgk
      have hmem : (k, subs) ∈ (collectGroups parent_groups paths).1 :=
        (List.perm_insertionSort groupLe _).mem_iff.mp hmem0
      have hlt : pathsMeasure subs < pathsMeasure paths :=
        mem_collectGroups_measure_lt parent_groups paths k subs hmem
      exact ih subs (parent_groups ++ [k]) (by omega)

/-- Every group node anywhere in a produced level is displayed under its
dot-joined fully-qualified name `joinStr '.' (parent_groups ++ [k])` (no leading
dot when the parent-group list is empty, since the join is over the whole
segment list), while its children stay structurally nested one level deeper. -/
inductive NavNamed : List String → List Nav → Prop where
  | nil (parent_groups : List String) : NavNamed parent_groups []
  | page (parent_groups : List String) (s : String) (l : List Nav) :
      NavNamed parent_groups l → NavNamed parent_groups (Nav.page s :: l)
  | group (parent_groups : List String) (k : String) (children l : List Nav) :
      NavNamed (parent_groups ++ [k]) children → NavNamed parent_groups l →
      NavNamed parent_groups (Nav.group (joinStr '.' (parent_groups ++ [k])) children :: l)

theorem dotName_eq_dotJoin (parent_groups : List String) (k : String) :
    dotName parent_groups k = joinStr '.' (parent_groups ++ [k]) := by
  cases parent_groups with
  | nil => simp [dotName, joinStr_singleton]
  | cons p ps => simp [dotName]

theorem navNamed_append (parent_groups : List String) (a b : List Nav)
    (ha : NavNamed parent_groups a) (hb : NavNamed parent_groups b) :
    NavNamed parent_groups (a ++ b) := by
  revert hb
  induction ha with
  | nil => intro hb; simpa using hb
  | page P s l _ ih => intro hb; exact NavNamed.page P s _ (ih hb)
  | group P k children l hc _ ihc ihl => intro hb; exact NavNamed.group P k children _ hc (ihl hb)

theorem navNamed_pages (parent_groups : List String) (ps : List String) :
    NavNamed parent_groups (ps.map Nav.page) := by
  induction ps with
  | nil => exact NavNamed.nil parent_groups
  | cons p pt ih => exact NavNamed.page parent_groups p _ ih

theorem navNamed_groups (parent_groups : List String) (gs : List (String × List Nav))
    (h : ∀ gk ∈ gs, NavNamed (parent_groups ++ [gk.1]) gk.2) :
    NavNamed parent_groups
      (gs.map (fun gk => Nav.group (dotName parent_groups gk.1) gk.2)) := by
  induction gs with
  | nil => exact NavNamed.nil parent_groups
  | cons gk gt ih =>
    simp only [List.map_cons]
    rw [dotName_eq_dotJoin]
    exact NavNamed.group parent_groups gk.1 _ _ (h gk (List.mem_cons_self gk gt))
      (ih fun x hx => h x (List.mem_cons_of_mem gk hx))

theorem navNamed_create (n : Nat) :
    ∀ (paths parent_groups : List String), pathsMeasure paths ≤ n →
    NavNamed parent_groups (create_nav_structure paths parent_groups) := by
  induction n with
  | zero =>
    intro paths parent_groups hn
    have : paths = [] := pathsMeasure_eq_zero (Nat.le_zero.mp hn)
    subst this
    rw [create_nav_structure_nil]
    exact NavNamed.nil parent_groups
  | succ n ih =>
    intro paths parent_groups hn
    rw [create_nav_structure_unfold]
    apply navNamed_append
    · have key := navNamed_groups parent_groups
        ((sortedGroups (collectGroups parent_groups paths).1).map
          (fun gk => (gk.1, create_nav_structure gk.2 (parent_groups ++ [gk.1])))) ?_
      · rw [List.map_map] at key
        exact key
      · intro gk hgk
        simp only [List.mem_map] at hgk
        obtain ⟨⟨k, subs⟩, hmem0, rfl⟩ := hgk
        have hmem : (k, subs) ∈ (collectGroups parent_groups paths).1 :=
          (List.perm_insertionSort groupLe _).mem_iff.mp hmem0
        have hlt : pathsMeasure subs < pathsMeasure paths :=
          mem_collectGroups_measure_lt parent_groups paths k subs hmem
        exact ih subs (parent_groups ++ [k]) (by omega)
    · exact navNamed_pages parent_groups _


/-- The page-reference strings (leaves) of a navigation level, in order. -/
def leavesList : List Nav → List String
  | [] => []
  | Nav.page s :: rest => s :: leavesList rest
  | Nav.group _ children :: rest => leavesList children ++ leavesList rest

theorem leavesList_nil : leavesList [] = [] := by simp [leavesList]

theorem leavesList_append (a b : List Nav) :
    leavesList (a ++ b) = leavesList a ++ leavesList b := by
  induction a with
  | nil => simp [leavesList]
  | cons n rest ih =>
    cases n with
    | page s => simp only [List.cons_append, leavesList, ih]
    | group g children => simp only [List.cons_append, leavesList, ih, List.append_assoc]

theorem leavesList_pages (ps : List String) : leavesList (ps.map Nav.page) = ps := by
  induction ps with
  | nil => simp [leavesList]
  | cons p pt ih => simp only [List.map_cons, leavesList, ih]

theorem leavesList_groups (gs : List (String × List String)) (name : String → String)
    (child : String × List String → List Nav) :
    leavesList (gs.map fun gk => Nav.group (name gk.1) (child gk))
      = (gs.map fun gk => leavesList (child gk)).flatten := by
  induction gs with
  | nil => simp [leavesList]
  | cons gk gt ih =>
    simp only [List.map_cons, leavesList, ih, List.flatten_cons]

/-- The leaf that the entry `p` of the input list finally contributes, when
processed below the groups `parent_groups`. -/
def navLeaf (parent_groups : List String) (p : String) : String :=
  "docs/reference/" ++ joinStr '/' (parent_groups ++ splitStr '/' p)

theorem navLeaf_single (parent_groups : List String) (p x : String)
    (h : splitStr '/' p = [x]) : navLeaf parent_groups p = add_prefix p parent_groups := by
  have hx : x = p := by
    have := joinStr_splitStr '/' p
    rw [h, joinStr_singleton] at this
    exact this
  subst hx
  simp only [navLeaf, add_prefix, h]

theorem navLeaf_tail (parent_groups : List String) (p g y : String) (ys : List String)
    (h : splitStr '/' p = g :: y :: ys) :
    navLeaf (parent_groups ++ [g]) (joinStr '/' (y :: ys)) = navLeaf parent_groups p := by
  have hsplit : splitStr '/' (joinStr '/' (y :: ys)) = y :: ys := by
    apply splitStr_joinStr '/' (y :: ys) (by simp)
    intro t ht
    exact mem_splitStr_sep_free '/' p t (h ▸ List.mem_cons_of_mem g ht)
  simp only [navLeaf, hsplit, h, List.append_assoc, List.cons_append, List.nil_append]

/-- The multiset of leaves already recorded inside a groups accumulator, were
each group's pending subpaths pushed all the way down. -/
def groupsLeafSum (parent_groups : List String) (gs : List (String × List String)) :
    Multiset String :=
  (gs.map fun gk =>
    ((gk.2.map (navLeaf (parent_groups ++ [gk.1])) : List String) : Multiset String)).sum

theorem groupsLeafSum_addToGroups (parent_groups : List String) (g sub : String)
    (gs : List (String × List String)) :
    groupsLeafSum parent_groups (addToGroups g sub gs)
      = groupsLeafSum parent_groups gs
        + (([navLeaf (parent_groups ++ [g]) sub] : List String) : Multiset String) := by
  induction gs with
  | nil => simp [addToGroups, groupsLeafSum]
  | cons kv rest ih =>
    obtain ⟨k, v⟩ := kv
    simp only [addToGroups]
    split
    · rename_i hk
      subst hk
      simp only [groupsLeafSum, List.map_cons, List.sum_cons, List.map_append]
      rw [← Multiset.coe_add]
      simp [add_comm, add_assoc, add_left_comm]
    · simp only [groupsLeafSum, List.map_cons, List.sum_cons] at ih ⊢
      rw [ih]
      simp [add_comm, add_assoc, add_left_comm]

theorem foldl_leafSum (parent_groups : List String) (paths : List String) :
    ∀ acc : List (String × List String) × List String,
    groupsLeafSum parent_groups (paths.foldl (processPath parent_groups) acc).1
        + ((paths.foldl (processPath parent_groups) acc).2 : Multiset String)
      = groupsLeafSum parent_groups acc.1 + (acc.2 : Multiset String)
        + ((paths.map (navLeaf parent_groups) : List String) : Multiset String) := by
  induction paths with
  | nil => intro acc; simp
  | cons p ps ih =>
    intro acc
    simp only [List.foldl_cons, List.map_cons]
    rw [ih (processPath parent_groups acc p)]
    have hstep : groupsLeafSum parent_groups (processPath parent_groups acc p).1
          + ((processPath parent_groups acc p).2 : Multiset String)
        = groupsLeafSum parent_groups acc.1 + (acc.2 : Multiset String)
          + (([navLeaf parent_groups p] : List String) : Multiset String) := by
      simp only [processPath]
      split
      · rename_i hlen
        cases hsp : splitStr '/' p with
        | nil => exact absurd hsp (splitStr_ne_nil '/' p)
        | cons x rest =>
          cases rest with
          | nil =>
            rw [← navLeaf_single parent_groups p x hsp, ← Multiset.coe_add]
            simp [add_assoc]
          | cons y ys => rw [hsp] at hlen; simp at hlen
      · rename_i hlen
        cases hsp : splitStr '/' p with
        | nil => exact absurd hsp (splitStr_ne_nil '/' p)
        | cons x rest =>
          cases rest with
          | nil => rw [hsp] at hlen; simp at hlen
          | cons y ys =>
            simp only [List.headD_cons, List.tail_cons]
            rw [groupsLeafSum_addToGroups, navLeaf_tail parent_groups p x y ys hsp]
            simp [add_comm, add_assoc, add_left_comm]
    have hsplit1 : ((navLeaf parent_groups p :: List.map (navLeaf parent_groups) ps
          : List String) : Multiset String)
        = (([navLeaf parent_groups p] : List String) : Multiset String)
          + ((List.map (navLeaf parent_groups) ps : List String) : Multiset String) := by
      rw [Multiset.coe_add]
      rfl
    rw [hstep, hsplit1]
    simp [add_comm, add_assoc, add_left_comm]

theorem multiset_coe_flatten (L : List (List String)) :
    ((L.flatten : List String) : Multiset String)
      = (L.map fun l => ((l : List String) : Multiset String)).sum := by
  induction L with
  | nil => rfl
  | cons l ls ih =>
    simp only [List.flatten_cons, List.map_cons, List.sum_cons, ← Multiset.coe_add, ih]

theorem leaves_create (n : Nat) :
    ∀ (paths parent_groups : List String), pathsMeasure paths ≤ n →
    ((leavesList (create_nav_structure paths parent_groups) : List String) : Multiset String)
      = ((paths.map (navLeaf parent_groups) : List String) : Multiset String) := by
  induction n with
  | zero =>
    intro paths parent_groups hn
    have : paths = [] := pathsMeasure_eq_zero (Nat.le_zero.mp hn)
    subst this
    rw [create_nav_structure_nil, leavesList_nil]
    rfl
  | succ n ih =>
    intro paths parent_groups hn
    rw [create_nav_structure_unfold, leavesList_append, leavesList_pages,
      leavesList_groups _ (dotName parent_groups)
        (fun gk => create_nav_structure gk.2 (parent_groups ++ [gk.1])),
      ← Multiset.coe_add, multiset_coe_flatten, List.map_map]
    have hgs : ((sortedGroups (collectGroups parent_groups paths).1).map
          ((fun l => ((l : List String) : Multiset String))
            ∘ fun gk => leavesList (create_nav_structure gk.2 (parent_groups ++ [gk.1])))).sum
        = groupsLeafSum parent_groups (sortedGroups (collectGroups parent_groups paths).1) := by
      unfold groupsLeafSum
      congr 1
      apply List.map_congr_left
      intro gk hgk
      have hmem : gk ∈ (collectGroups parent_groups paths).1 :=
        (List.perm_insertionSort groupLe _).mem_iff.mp hgk
      have hlt : pathsMeasure gk.2 < pathsMeasure paths :=
        mem_collectGroups_measure_lt parent_groups paths gk.1 gk.2 hmem
      exact ih gk.2 (parent_groups ++ [gk.1]) (by omega)
    rw [hgs]
    have hperm : groupsLeafSum parent_groups
          (sortedGroups (collectGroups parent_groups paths).1)
        = groupsLeafSum parent_groups (collectGroups parent_groups paths).1 :=
      List.Perm.sum_eq (List.Perm.map _ (List.perm_insertionSort groupLe _))
    have hpages : (((sortedStrings (collectGroups parent_groups paths).2) : List String)
          : Multiset String)
        = (((collectGroups parent_groups paths).2 : List String) : Multiset String) :=
      Multiset.coe_eq_coe.mpr (List.perm_insertionSort strLe _)
    rw [hperm, hpages]
    have := foldl_leafSum parent_groups paths ([], [])
    simpa [collectGroups, groupsLeafSum] using this

theorem navLeaf_nil_eq (p : String) : navLeaf [] p = add_prefix p [] := by
  simp only [navLeaf, add_prefix, List.nil_append]
  rw [joinStr_splitStr, joinStr_singleton]

/-- C1: for every flat list of '/'-separated path strings and every parent-group
list, `create_nav_structure` places all group nodes before all page nodes at
every nesting level, with the group nodes sorted ascending by their raw
(unqualified) first segment and the page nodes sorted ascending by their full
prefixed path string (the string stored in the page node). -/
theorem claim_C1_nav_ordering (paths parent_groups : List String) :
    NavOrdered parent_groups (create_nav_structure paths parent_groups) :=
  navOrdered_create (pathsMeasure paths) paths parent_groups (le_refl _)

/-- C2: for every duplicate-free flat list `L` of path strings, the leaves of
`create_nav_structure L []` are a permutation of `L` mapped through the page
prefix, so every entry of `L` yields exactly one leaf and no leaf arises from
anything else; and the empty input list yields the empty result. -/
theorem claim_C2_leaves_bijection (L : List String) (h : L.Nodup) :
    (leavesList (create_nav_structure L [])).Perm (L.map fun p => add_prefix p [])
      ∧ create_nav_structure [] [] = [] := by
  refine ⟨?_, rfl⟩
  apply Multiset.coe_eq_coe.mp
  rw [leaves_create (pathsMeasure L) L [] (le_refl _)]
  congr 1
  apply List.map_congr_left
  intro p _
  exact navLeaf_nil_eq p

/-- Witness for C2 at the concrete input `["a/b", "a/c", "d"]`. -/
theorem claim_C2_leaves_bijection_witness :
    (["a/b", "a/c", "d"] : List String).Nodup ∧
      ((leavesList (create_nav_structure ["a/b", "a/c", "d"] [])).Perm
          ((["a/b", "a/c", "d"] : List String).map fun p => add_prefix p [])
        ∧ create_nav_structure [] [] = []) :=
  ⟨by decide, claim_C2_leaves_bijection ["a/b", "a/c", "d"] (by decide)⟩

/-- C3: every group node produced by `create_nav_structure`, at any recursion
depth, displays the dot-joined fully-qualified name
`joinStr '.' (parent_groups ++ [segment])` (no leading dot when the parent-group
list is empty), while the nodes in its pages list remain structurally nested. -/
theorem claim_C3_group_names (paths parent_groups : List String) :
    NavNamed parent_groups (create_nav_structure paths parent_groups) :=
  navNamed_create (pathsMeasure paths) paths parent_groups (le_refl _)

/-- C4: on the input `["a/b", "a/c", "d"]` with no parent groups, the builder
returns exactly one group named `a` with pages `docs/reference/a/b` and
`docs/reference/a/c`, followed by the single page `docs/reference/d`. -/
theorem claim_C4_concrete_example :
    create_nav_structure ["a/b", "a/c", "d"] [] =
      [Nav.group "a" [Nav.page "docs/reference/a/b", Nav.page "docs/reference/a/c"],
       Nav.page "docs/reference/d"] := rfl

/-- The error raised when a path is not under the base directory (Python:
`Path.relative_to` raises `ValueError`; the spec calls it `PathNotUnderBase`). -/
inductive PathError where
  | pathNotUnderBase
deriving DecidableEq

/-- Python `file.relative_to(base)` on path-component lists: the components of
`base` must be a prefix of those of `file`; the result is the remaining
components, and otherwise the call raises (modelled as `none`). -/
def relative_to (file base : List String) : Option (List String) :=
  if base <+: file then some (file.drop base.length) else none

/-- The string form of a relative path made of the given components: `"."` for
the empty relative path, otherwise the '/'-joined components. -/
def relPathStr (segs : List String) : String :=
  if segs.isEmpty then "." else joinStr '/' segs

/-- Character-list prefix test (Python `str.startswith` compares the raw
characters of the candidate prefix against the start of the string). -/
def isPrefixChars : List Char → List Char → Bool
  | [], _ => true
  | _ :: _, [] => false
  | a :: as, b :: bs => if a = b then isPrefixChars as bs else false

/-- Python `s.startswith(p)`. -/
def pyStartsWith (s p : String) : Bool := isPrefixChars p.data s.data

/-- The generator expression
`any(str(file.relative_to(website_dir)).startswith(excl) for excl in exclusion_list)`
from `filter_excluded_files` (generate_mkdocs.py lines 12-16).  With an empty
exclusion list the generator body is never evaluated, so `relative_to` is never
called; with a non-empty list, `relative_to` runs (and may raise) before any
prefix test. -/
def anyExclusionMatch (file website_dir : List String) :
    List String → Except PathError Bool
  | [] => Except.ok false
  | excl :: rest =>
    match relative_to file website_dir with
    | none => Except.error PathError.pathNotUnderBase
    | some r =>
      if pyStartsWith (relPathStr r) excl then Except.ok true
      else anyExclusionMatch file website_dir rest

/-- Source `filter_excluded_files(files, exclusion_list, website_dir)`
(generate_mkdocs.py lines 11-16): the list comprehension keeps the files whose
relative string form starts with no exclusion prefix; an exception raised for
any file propagates and aborts the whole call. -/
def filter_excluded_files (files : List (List String)) (exclusion_list : List String)
    (website_dir : List String) : Except PathError (List (List String)) :=
  match files with
  | [] => Except.ok []
  | f :: fs =>
    match anyExclusionMatch f website_dir exclusion_list with
    | Except.error e => Except.error e
    | Except.ok b =>
      match filter_excluded_files fs exclusion_list website_dir with
      | Except.error e => Except.error e
      | Except.ok rest => Except.ok (if b then rest else f :: rest)

theorem anyExclusionMatch_under_base (file website_dir : List String)
    (h : website_dir <+: file) (E : List String) :
    anyExclusionMatch file website_dir E
      = Except.ok (E.any fun excl =>
          pyStartsWith (relPathStr (file.drop website_dir.length)) excl) := by
  induction E with
  | nil => rfl
  | cons excl rest ih =>
    simp only [anyExclusionMatch, relative_to, if_pos h, List.any_cons]
    split
    · rename_i hpre
      simp [hpre]
    · rename_i hpre
      rw [ih]
      simp only [Bool.not_eq_true] at hpre
      simp [hpre]

/-- C5: for every file list whose paths all lie under the base directory, every
exclusion-prefix list, `filter_excluded_files` returns exactly the sublist of
files whose relative-to-base string form starts with no exclusion prefix, in the
original order; in particular the empty exclusion list returns the input
unchanged. -/
theorem claim_C5_filter_exact (files : List (List String)) (E : List String)
    (website_dir : List String) (h : ∀ f ∈ files, website_dir <+: f) :
    filter_excluded_files files E website_dir
        = Except.ok (files.filter fun f =>
            ! E.any fun excl => pyStartsWith (relPathStr (f.drop website_dir.length)) excl)
      ∧ (E = [] → filter_excluded_files files E website_dir = Except.ok files) := by
  have main : filter_excluded_files files E website_dir
      = Except.ok (files.filter fun f =>
          ! E.any fun excl => pyStartsWith (relPathStr (f.drop website_dir.length)) excl) := by
    induction files with
    | nil => rfl
    | cons f fs ih =>
      simp only [filter_excluded_files,
        anyExclusionMatch_under_base f website_dir (h f (List.mem_cons_self f fs)) E,
        ih (fun g hg => h g (List.mem_cons_of_mem f hg)), List.filter_cons]
      cases hb : E.any fun excl =>
          pyStartsWith (relPathStr (f.drop website_dir.length)) excl <;> simp [hb]
  refine ⟨main, fun hE => ?_⟩
  subst hE
  rw [main]
  simp

/-- Witness for C5 at a concrete input: base `["w"]`, one kept and one excluded
file. -/
theorem claim_C5_filter_exact_witness :
    (∀ f ∈ [["w", "docs", "x"], ["w", "docs", "_blogs", "z"]], ["w"] <+: f)
      ∧ (filter_excluded_files [["w", "docs", "x"], ["w", "docs", "_blogs", "z"]]
            ["docs/_blogs"] ["w"]
          = Except.ok
              ([["w", "docs", "x"], ["w", "docs", "_blogs", "z"]].filter fun f =>
                ! ["docs/_blogs"].any fun excl =>
                  pyStartsWith (relPathStr (f.drop (["w"] : List String).length)) excl)
        ∧ (["docs/_blogs"] = ([] : List String) →
            filter_excluded_files [["w", "docs", "x"], ["w", "docs", "_blogs", "z"]]
              ["docs/_blogs"] ["w"]
            = Except.ok [["w", "docs", "x"], ["w", "docs", "_blogs", "z"]])) :=
  ⟨by decide,
   claim_C5_filter_exact [["w", "docs", "x"], ["w", "docs", "_blogs", "z"]]
     ["docs/_blogs"] ["w"] (by decide)⟩

/-- Counterexample to C6 as stated: with an empty exclusion list the generator
body of `any` is never evaluated, so `relative_to` never runs and the function
returns the input unchanged even though the path `["x", "y"]` is not under the
base `["base"]` — it does not fail for that exclusion list. -/
theorem claim_C6_counterexample :
    filter_excluded_files [["x", "y"]] [] ["base"] = Except.ok [["x", "y"]]
      ∧ ¬ ["base"] <+: ["x", "y"] := by
  exact ⟨rfl, by decide⟩

/-- C6 (amended): for every input list containing at least one path that is not
under the base directory and every non-empty exclusion list,
`filter_excluded_files` fails with `PathError.pathNotUnderBase` rather than
returning a result. -/
theorem claim_C6_amended_error (files : List (List String)) (E : List String)
    (website_dir : List String) (hE : E ≠ [])
    (h : ∃ f ∈ files, ¬ website_dir <+: f) :
    filter_excluded_files files E website_dir = Except.error PathError.pathNotUnderBase := by
  induction files with
  | nil => simp at h
  | cons f fs ih =>
    by_cases hf : website_dir <+: f
    · obtain ⟨g, hg, hng⟩ := h
      rcases List.mem_cons.mp hg with rfl | hgs
      · exact absurd hf hng
      · rw [filter_excluded_files,
          anyExclusionMatch_under_base f website_dir hf E, ih ⟨g, hgs, hng⟩]
    · cases E with
      | nil => exact absurd rfl hE
      | cons e es =>
        rw [filter_excluded_files]
        simp only [anyExclusionMatch, relative_to, if_neg hf]

/-- Witness for the amended C6 at a concrete input. -/
theorem claim_C6_amended_error_witness :
    (["e"] : List String) ≠ []
      ∧ (∃ f ∈ [["x"]], ¬ (["b"] : List String) <+: f)
      ∧ filter_excluded_files [["x"]] ["e"] ["b"]
          = Except.error PathError.pathNotUnderBase :=
  ⟨by decide, by decide, claim_C6_amended_error [["x"]] ["e"] ["b"] (by decide) (by decide)⟩

/-- One top-level section of the mint.json `navigation` list: its optional
`"group"` name (`section.get("group")` may be absent), its `"pages"` list, and
the remaining key/value entries of the JSON object, which the updater never
touches. -/
structure NavSection where
  group : Option String
  pages : List Nav
  extra : List (String × String)

/-- The parsed mint.json document: the `navigation` list plus all other
key/value entries. -/
structure MintConfig where
  navigation : List NavSection
  extra : List (String × String)

/-- The state of the mint.json file: either parseable as a navigation document
or not (`json.load` raises `JSONDecodeError` on the latter). -/
inductive MintFile where
  | valid : MintConfig → MintFile
  | invalid : String → MintFile

/-- The reported (printed, not raised) error of `update_nav`. -/
inductive NavUpdateError where
  | parseError

/-- The `for section in mint_config["navigation"]` loop of `update_nav`
(process_api_reference.py lines 191-194): replace the pages of the first section
whose `"group"` equals `"API Reference"`, then `break`. -/
def update_api_section (sections : List NavSection) (new_nav_pages : List Nav) :
    List NavSection :=
  match sections with
  | [] => []
  | s :: rest =>
    if s.group = some "API Reference" then { s with pages := new_nav_pages } :: rest
    else s :: update_api_section rest new_nav_pages

/-- Source `update_nav(mint_json_path, new_nav_pages)` (process_api_reference.py
lines 177-204), modelled as a file-state transformer: the result is the new
file state and the optionally reported error.  `json.load` runs before any
write, so a parse failure leaves the file untouched; the `except` clauses catch
every error and only print, so the function is total and nothing propagates to
the caller. -/
def update_nav (file : MintFile) (new_nav_pages : List Nav) :
    MintFile × Option NavUpdateError :=
  match file with
  | MintFile.invalid raw => (MintFile.invalid raw, some NavUpdateError.parseError)
  | MintFile.valid cfg =>
    (MintFile.valid
      { cfg with navigation := update_api_section cfg.navigation new_nav_pages }, none)

theorem update_api_section_no_match (sections : List NavSection) (new_nav_pages : List Nav)
    (h : ∀ s ∈ sections, s.group ≠ some "API Reference") :
    update_api_section sections new_nav_pages = sections := by
  induction sections with
  | nil => rfl
  | cons s rest ih =>
    rw [update_api_section, if_neg (h s (List.mem_cons_self s rest)),
      ih fun t ht => h t (List.mem_cons_of_mem s ht)]

theorem update_api_section_first_match (pre : List NavSection) (s : NavSection)
    (post : List NavSection) (new_nav_pages : List Nav)
    (hpre : ∀ t ∈ pre, t.group ≠ some "API Reference")
    (hs : s.group = some "API Reference") :
    update_api_section (pre ++ s :: post) new_nav_pages
      = pre ++ { s with pages := new_nav_pages } :: post := by
  induction pre with
  | nil => simp [update_api_section, hs]
  | cons t pt ih =>
    simp only [List.cons_append, update_api_section,
      if_neg (hpre t (List.mem_cons_self t pt)), List.append_eq]
    rw [ih fun u hu => hpre u (List.mem_cons_of_mem t hu)]

/-- C7: on a parseable navigation document, `update_nav` replaces the pages list
of only the first top-level section whose group name equals "API Reference",
leaving every other section and the section order unchanged; if no section
matches, the document data is written back unmodified. -/
theorem claim_C7_update_nav_frame (sections : List NavSection)
    (extra : List (String × String)) (new_nav_pages : List Nav) :
    ((∀ s ∈ sections, s.group ≠ some "API Reference") →
        update_nav (MintFile.valid ⟨sections, extra⟩) new_nav_pages
          = (MintFile.valid ⟨sections, extra⟩, none))
      ∧ (∀ (pre : List NavSection) (s : NavSection) (post : List NavSection),
          sections = pre ++ s :: post →
          (∀ t ∈ pre, t.group ≠ some "API Reference") →
          s.group = some "API Reference" →
          update_nav (MintFile.valid ⟨sections, extra⟩) new_nav_pages
            = (MintFile.valid ⟨pre ++ { s with pages := new_nav_pages } :: post, extra⟩,
               none)) := by
  constructor
  · intro h
    simp only [update_nav, update_api_section_no_match sections new_nav_pages h]
  · intro pre s post hdecomp hpre hs
    subst hdecomp
    simp only [update_nav, update_api_section_first_match pre s post new_nav_pages hpre hs]

/-- Witness for C7 at the spec's scenario: sections `Other` then `API Reference`;
only the latter's pages are replaced. -/
theorem claim_C7_update_nav_frame_witness :
    ((NavSection.mk (some "API Reference") [Nav.page "old"] []).group
        = some "API Reference")
      ∧ (∀ t ∈ [NavSection.mk (some "Other") [Nav.page "o"] []],
          t.group ≠ some "API Reference")
      ∧ update_nav
          (MintFile.valid
            ⟨[NavSection.mk (some "Other") [Nav.page "o"] [],
              NavSection.mk (some "API Reference") [Nav.page "old"] []], []⟩)
          [Nav.page "new1", Nav.page "new2"]
        = (MintFile.valid
            ⟨[NavSection.mk (some "Other") [Nav.page "o"] [],
              NavSection.mk (some "API Reference") [Nav.page "new1", Nav.page "new2"] []],
             []⟩, none) := by
  refine ⟨rfl, by decide, ?_⟩
  exact (claim_C7_update_nav_frame
      [NavSection.mk (some "Other") [Nav.page "o"] [],
        NavSection.mk (some "API Reference") [Nav.page "old"] []]
      [] [Nav.page "new1", Nav.page "new2"]).2
    [NavSection.mk (some "Other") [Nav.page "o"] []]
    (NavSection.mk (some "API Reference") [Nav.page "old"] [])
    [] rfl (by decide) rfl

/-- C8: on an unparseable navigation document, `update_nav` reports a parse
error and performs no write — the file's prior state is preserved unchanged —
and, being a total function, raises nothing to the caller. -/
theorem claim_C8_parse_error_no_write (raw : String) (new_nav_pages : List Nav) :
    update_nav (MintFile.invalid raw) new_nav_pages
      = (MintFile.invalid raw, some NavUpdateError.parseError) := rfl

/-- The result of a finished subprocess: exit code and captured stdout. -/
structure CompletedProcess where
  exitCode : Nat
  stdout : String

/-- The exception raised by `subprocess.run(..., check=True)` when the command
exits non-zero (`CalledProcessError`; for `git ls-files` outside a repository
the exit code is 128 — the spec's `VcsUnavailable` condition). -/
inductive SubprocessError where
  | calledProcessError : Nat → SubprocessError
deriving DecidableEq

/-- Python `str.splitlines` for newline-separated process output: like splitting
on the newline character, except that a trailing newline produces no empty final
entry and the empty string yields no lines. -/
def pySplitlines (s : String) : List String :=
  let ls := (splitOnCharList '\n' s.data).map String.mk
  if ls.getLast? = some "" then ls.dropLast else ls

/-- Source `get_git_tracked_files_in_directory(directory)` (utils.py lines
10-13).  The behaviour of the external `git -C <dir> ls-files` command is an
explicit environment parameter; `check=True` raises `CalledProcessError` on a
non-zero exit code, and otherwise each reported line `p` yields `directory / p`.
The Python set comprehension is modelled as the list of its members. -/
def get_git_tracked_files_in_directory (git_ls_files : List String → CompletedProcess)
    (directory : List String) : Except SubprocessError (List (List String)) :=
  let proc := git_ls_files directory
  if proc.exitCode = 0 then
    Except.ok ((pySplitlines proc.stdout).map fun p => directory ++ splitStr '/' p)
  else Except.error (SubprocessError.calledProcessError proc.exitCode)

/-- C9: when the directory is not under version control (`git ls-files` exits
non-zero), the tracked-file selector fails with the subprocess error surfaced to
the caller and never returns a (possibly empty) file set. -/
theorem claim_C9_vcs_error_surfaced (git_ls_files : List String → CompletedProcess)
    (directory : List String) (h : (git_ls_files directory).exitCode ≠ 0) :
    get_git_tracked_files_in_directory git_ls_files directory
        = Except.error (SubprocessError.calledProcessError (git_ls_files directory).exitCode)
      ∧ ∀ r, get_git_tracked_files_in_directory git_ls_files directory ≠ Except.ok r := by
  have main : get_git_tracked_files_in_directory git_ls_files directory
      = Except.error (SubprocessError.calledProcessError (git_ls_files directory).exitCode) := by
    simp only [get_git_tracked_files_in_directory, if_neg h]
  exact ⟨main, fun r hr => by rw [main] at hr; exact Except.noConfusion hr⟩

/-- Witness for C9 with a git environment that always reports exit code 128. -/
theorem claim_C9_vcs_error_surfaced_witness :
    ((fun _ : List String => CompletedProcess.mk 128 "") ["repo"]).exitCode ≠ 0
      ∧ (get_git_tracked_files_in_directory (fun _ => CompletedProcess.mk 128 "") ["repo"]
            = Except.error (SubprocessError.calledProcessError
                ((fun _ : List String => CompletedProcess.mk 128 "") ["repo"]).exitCode)
          ∧ ∀ r, get_git_tracked_files_in_directory
              (fun _ => CompletedProcess.mk 128 "") ["repo"] ≠ Except.ok r) :=
  ⟨by decide,
   claim_C9_vcs_error_surfaced (fun _ => CompletedProcess.mk 128 "") ["repo"] (by decide)⟩

/-- Source `escape_html_tags(content)` (process_api_reference.py lines 37-46):
replace every `<` by `\<` and every left brace by a backslash-escaped brace. -/
def escape_html_tags (content : String) : String :=
  (content.replace "<" "\\<").replace "\x7b" "\\\x7b"

/-- Source `add_code_fences(content)` (process_api_reference.py lines 73-99):
the body's first statement is `return content` (line 81), so the fencing loop on
lines 82-99 is unreachable dead code and the function is the identity. -/
def add_code_fences (content : String) : String := content

/-- The per-file content transformation of `convert_md_to_mdx`
(process_api_reference.py lines 116-127): escape HTML tags, add code fences,
then rename the side-nav title key. -/
def convert_md_content (content : String) : String :=
  (add_code_fences (escape_html_tags content)).replace "sidebar_label: " "sidebarTitle: "

/-- C10: `add_code_fences` returns its input unchanged — its code-fencing logic
is unreachable dead code — so the md-to-mdx conversion of a file's content
reduces to escaping plus the side-nav title rename and never inserts Python code
fences. -/
theorem claim_C10_add_code_fences_identity (content : String) :
    add_code_fences content = content
      ∧ convert_md_content content
          = (escape_html_tags content).replace "sidebar_label: " "sidebarTitle: " :=
  ⟨rfl, rfl⟩
